import Mathlib

/-!
Verification of the crib repository's rules engine, resumable session and
statistics persistence layer against its specification.

The engine itself (session, round state machine, pegging engine) is modelled
from the specification, since only its tests accompany the repository; the
statistics layer (`database.py`) is embedded from the source.
-/

namespace Crib

/-! ## Card model (spec section 3: Card/Deck) -/

inductive Suit
  | hearts
  | diamonds
  | spades
  | clubs
deriving DecidableEq, Repr

/-- A playing card: rank is the ordinal 1..13 (Ace..King). -/
structure Card where
  rank : Nat
  suit : Suit
deriving DecidableEq, Repr

/-- Counting value: Ace=1, 2..10 face value, Jack/Queen/King=10. -/
def Card.value (c : Card) : Nat := min c.rank 10

inductive Player
  | human
  | computer
deriving DecidableEq, Repr

def Player.other : Player → Player
  | .human => .computer
  | .computer => .human

/-! ## Pegging scoring (spec section 4.3: Apply play) -/

def sumValues (cs : List Card) : Nat := (cs.map Card.value).sum

/-- Cards of the acting hand playable without exceeding 31. -/
def legalMoves (hand : List Card) (v : Nat) : List Card :=
  hand.filter (fun c => v + c.value ≤ 31)

/-- Length of the run of cards at the head of the list sharing rank `rk`. -/
def countWhileRank (rk : Nat) : List Card → Nat
  | [] => 0
  | c :: cs => if c.rank = rk then countWhileRank rk cs + 1 else 0

/-- Pair/triple/quad points for the trailing same-rank block after playing `c`
onto `seq` (walking backward from the most recent card while ranks match). -/
def pairPoints (seq : List Card) (c : Card) : Nat :=
  match countWhileRank c.rank ((seq ++ [c]).reverse) with
  | 2 => 2
  | 3 => 6
  | 4 => 12
  | _ => 0

def insertSorted (n : Nat) : List Nat → List Nat
  | [] => [n]
  | m :: ms => if n ≤ m then n :: m :: ms else m :: insertSorted n ms

def sortRanks (l : List Nat) : List Nat := l.foldr insertSorted []

/-- A (sorted) list of ranks is a strictly consecutive chain. -/
def isConsec : List Nat → Bool
  | [] => true
  | [_] => true
  | a :: b :: rest => (b = a + 1) && isConsec (b :: rest)

/-- The last `n` elements of a list. -/
def lastN (n : Nat) (l : List Card) : List Card := l.drop (l.length - n)

/-- Run points for the sequence ending in the just-played card: the longest
trailing block of `n ≥ 3` cards whose ranks, sorted, are consecutive. -/
def runPoints (seq : List Card) : Nat :=
  ((List.range (seq.length + 1)).filter
    (fun n => 3 ≤ n && isConsec (sortRanks ((lastN n seq).map Card.rank)))).foldr max 0

/-- Points earned by playing `c` when the current sequence is `seq`:
fifteen, thirty-one, trailing pairs, trailing runs. -/
def playPoints (seq : List Card) (c : Card) : Nat :=
  let v := sumValues seq + c.value
  (if v = 15 then 2 else 0) + (if v = 31 then 2 else 0)
    + pairPoints seq c + runPoints (seq ++ [c])

/-! ## Session state (spec sections 4.4, 4.5)

Modelled from the spec: the repository's `app.py` session and round state
machine are not shipped with the sources, only their tests; the state below
follows the spec's Round/Session data model.  The full play history `table`
is kept while only the running value resets (`seqStart` marks where the
current sequence begins). -/

inductive Phase
  | cribSelect
  | pegging
  | finished
deriving DecidableEq, Repr

structure Session where
  phase : Phase
  dealer : Player
  turn : Player
  humanHand : List Card
  computerHand : List Card
  crib : List Card
  deck : List Card
  starter : Option Card
  table : List (Player × Card)
  seqStart : Nat
  youScore : Nat
  compScore : Nat
deriving DecidableEq, Repr

def Session.hand (s : Session) : Player → List Card
  | .human => s.humanHand
  | .computer => s.computerHand

def Session.score (s : Session) : Player → Nat
  | .human => s.youScore
  | .computer => s.compScore

def addScore (s : Session) (p : Player) (n : Nat) : Session :=
  match p with
  | .human => { s with youScore := s.youScore + n }
  | .computer => { s with compScore := s.compScore + n }

def setHand (s : Session) (p : Player) (h : List Card) : Session :=
  match p with
  | .human => { s with humanHand := h }
  | .computer => { s with computerHand := h }

/-- The cards of the current (post-reset) sequence, in play order. -/
def seqCards (s : Session) : List Card := (s.table.drop s.seqStart).map Prod.snd

/-- The running table value: sum of values since the last reset. -/
def runningValue (s : Session) : Nat := sumValues (seqCards s)

def bothEmpty (s : Session) : Bool := s.humanHand.isEmpty && s.computerHand.isEmpty

def totalCards (s : Session) : Nat := s.humanHand.length + s.computerHand.length

/-- First side at or past 121 has won (spec: winning threshold 121). -/
def gameOverB (s : Session) : Bool :=
  decide (121 ≤ s.youScore) || decide (121 ≤ s.compScore)

def winnerOf (s : Session) : Option Player :=
  if 121 ≤ s.youScore then some .human
  else if 121 ≤ s.compScore then some .computer
  else none

/-! ## Pegging engine transitions (spec section 4.3)

Modelled from the spec: apply-play appends to the table, awards play points,
and — when the play exhausts both hands or neither side can extend —
awards the last-card point and resets the running value; declare-go passes
control, and when both sides are stuck, scores the last player and resets. -/

/-- Play `c` from `p`'s hand: remove it, append it to the table, pass the
turn, and award this play's pegging points. -/
def playCore (s : Session) (p : Player) (c : Card) : Session :=
  let s₁ := setHand s p ((s.hand p).erase c)
  let s₂ := { s₁ with table := s₁.table ++ [(p, c)], turn := p.other }
  addScore s₂ p (playPoints (seqCards s) c)

/-- After a play, the last-card point is due when every remaining hand is
empty or neither side can extend the sequence (spec 4.3, last card). -/
def lastCardDue (s : Session) : Bool :=
  (s.humanHand.isEmpty && s.computerHand.isEmpty) ||
  ((legalMoves s.humanHand (runningValue s)).isEmpty &&
   (legalMoves s.computerHand (runningValue s)).isEmpty)

def applyPlayS (s : Session) (p : Player) (c : Card) : Session :=
  let s₃ := playCore s p c
  if lastCardDue s₃ then
    let s₄ := addScore s₃ p 1
    { s₄ with seqStart := s₄.table.length }
  else s₃

/-- Declare "go" by `p` (who has no legal move): if the opponent can extend,
control passes without ending the sequence; otherwise the last player who
played scores 1 and the running value resets, the lead passing to the other
side (or to the last player, when the other hand is exhausted). -/
def applyGo (s : Session) (p : Player) : Session :=
  if legalMoves (s.hand p.other) (runningValue s) ≠ [] then
    { s with turn := p.other }
  else
    match (s.table.drop s.seqStart).getLast? with
    | some (q, _) =>
        let s₁ := addScore s q 1
        { s₁ with seqStart := s₁.table.length,
                  turn := if (s₁.hand q.other).isEmpty then q else q.other }
    | none => { s with seqStart := s.table.length, turn := .human }

/-! ## Opponent strategy and the automatic computer loop (spec section 4.5) -/

/-- A decision policy: given the acting hand and the current sequence,
propose a card (or none for "go").  The session validates the proposal. -/
abbrev Strategy := List Card → List Card → Option Card

/-- The card the computer actually plays: the strategy's proposal when it is
legal, otherwise the first legal card; `none` exactly when no move is legal. -/
def pickLegal (strat : Strategy) (hand seq : List Card) : Option Card :=
  let lm := legalMoves hand (sumValues seq)
  match strat hand seq with
  | some c => if c ∈ lm then some c else lm.head?
  | none => lm.head?

/-- The automatic computer-move loop, with explicit fuel: while it is the
computer's turn in an unfinished pegging position, play a legal card, or
resolve a "go" (playing immediately after a reset that leaves the computer
on lead).  Each recursive call follows an actual card play. -/
def computerMovesFuel (strat : Strategy) : Nat → Session → Session
  | 0, s => s
  | fuel + 1, s =>
    if s.turn = .computer ∧ gameOverB s = false ∧ bothEmpty s = false then
      match pickLegal strat s.computerHand (seqCards s) with
      | some c => computerMovesFuel strat fuel (applyPlayS s .computer c)
      | none =>
        let s' := applyGo s .computer
        if s'.turn = .computer then
          match pickLegal strat s'.computerHand (seqCards s') with
          | some c => computerMovesFuel strat fuel (applyPlayS s' .computer c)
          | none => s'
        else s'
    else s

/-- Drive automatic computer turns after a human decision (spec 4.5 step 3):
iterations are bounded by the number of cards remaining in both hands. -/
def computerMoves (strat : Strategy) (s : Session) : Session :=
  computerMovesFuel strat (totalCards s + 1) s

/-! ## Observable state, pending action, submit (spec sections 4.5, 6, 7) -/

inductive PendingKind
  | selectCribCards
  | selectCardToPlay
  | waitingForComputer
deriving DecidableEq, Repr

/-- The pending-action marker of the observable state. -/
def pendingOf (s : Session) : Option PendingKind :=
  if gameOverB s = true then none
  else match s.phase with
    | .cribSelect => some .selectCribCards
    | .finished => none
    | .pegging =>
      if bothEmpty s = true then none
      else if s.turn = .human then some .selectCardToPlay
      else some .waitingForComputer

structure Snapshot where
  yourHand : List Card
  computerHandSize : Nat
  starter : Option Card
  tableCards : List Card
  tableValue : Nat
  youScore : Nat
  compScore : Nat
  pending : Option PendingKind
  gameOver : Bool
  winner : Option Player
deriving DecidableEq, Repr

/-- The observable state snapshot exposed to the caller (spec section 6). -/
def getState (s : Session) : Snapshot :=
  { yourHand := s.humanHand
    computerHandSize := s.computerHand.length
    starter := s.starter
    tableCards := s.table.map Prod.snd
    tableValue := runningValue s
    youScore := s.youScore
    compScore := s.compScore
    pending := pendingOf s
    gameOver := gameOverB s
    winner := winnerOf s }

/-- The get-state endpoint: a pure read returning the snapshot and the
untouched session. -/
def getGame (s : Session) : Snapshot × Session := (getState s, s)

inductive ErrMsg
  | validation
  | illegalPlay
  | emptyDeck
  | gameAlreadyOver
deriving DecidableEq, Repr

def cardDefault : Card := ⟨1, .hearts⟩

/-- Submit one human decision (spec 4.5): validate the selection against the
pending action; on success apply it and run the automatic computer loop.
Modelled from the spec: crib selection takes exactly 2 indices, moves the
discards (and the computer's two) to the crib, cuts the starter (his-heels
to the dealer on a Jack) and enters pegging; a pegging selection is one
index (a play) or empty (a "go"). -/
def submitAction (strat : Strategy) (s : Session) (sel : List Nat) :
    Except ErrMsg Session :=
  if gameOverB s = true then .error .gameAlreadyOver
  else match s.phase with
  | .finished => .error .gameAlreadyOver
  | .cribSelect =>
    match sel with
    | [i, j] =>
      if i < s.humanHand.length ∧ j < s.humanHand.length ∧ i ≠ j then
        match s.deck with
        | [] => .error .emptyDeck
        | st :: rest =>
          let s₁ := { s with
            humanHand := (s.humanHand.eraseIdx (max i j)).eraseIdx (min i j)
            computerHand := s.computerHand.drop 2
            crib := [s.humanHand.getD i cardDefault, s.humanHand.getD j cardDefault]
              ++ s.computerHand.take 2
            deck := rest
            starter := some st
            phase := .pegging
            table := []
            seqStart := 0
            turn := s.dealer.other }
          let s₂ := addScore s₁ s.dealer (if st.rank = 11 then 2 else 0)
          .ok (computerMoves strat s₂)
      else .error .validation
    | _ => .error .validation
  | .pegging =>
    if s.turn = .human then
      match sel with
      | [] =>
        if (legalMoves s.humanHand (runningValue s)).isEmpty then
          .ok (computerMoves strat (applyGo s .human))
        else .error .validation
      | [i] =>
        match s.humanHand[i]? with
        | some c =>
          if runningValue s + c.value ≤ 31 then
            .ok (computerMoves strat (applyPlayS s .human c))
          else .error .illegalPlay
        | none => .error .validation
      | _ => .error .validation
    else .error .validation

/-- The action endpoint: a validation failure reports the error and leaves
the session exactly as it was (spec section 7: state unchanged). -/
def handleAction (strat : Strategy) (s : Session) (sel : List Nat) :
    Option ErrMsg × Session :=
  match submitAction strat s sel with
  | .ok s' => (none, s')
  | .error e => (some e, s)

/-- The session component of a fallible result, for stating concrete runs. -/
def resultState : Except ErrMsg Session → Option Session
  | .ok s => some s
  | .error _ => none

/-- A strategy proposing nothing, so the engine falls back to the first
legal card. -/
def stratFirst : Strategy := fun _ _ => none

/-! ## Statistics persistence (`src/database.py`)

Embedded from the source.  A `MatchHistory` row keeps win/loss tallies per
(user, opponent) pair; the database may be unconfigured (`none`), and any
failure of the query/commit transaction is modelled by the `fail` flag —
the `except` branch of the source rolls the write back. -/

structure MatchRecord where
  userId : String
  opponentId : String
  wins : Nat
  losses : Nat
deriving DecidableEq, Repr

abbrev StatsDB := List MatchRecord

/-- The find-or-create-then-increment body of `record_match_result`'s
`try` block. -/
def upsertResult (db : StatsDB) (u o : String) (won : Bool) : StatsDB :=
  match db.find? (fun r => r.userId = u && r.opponentId = o) with
  | some _ =>
      db.map (fun r =>
        if r.userId = u && r.opponentId = o then
          if won then { r with wins := r.wins + 1 } else { r with losses := r.losses + 1 }
        else r)
  | none =>
      db ++ [{ userId := u, opponentId := o,
               wins := if won then 1 else 0, losses := if won then 0 else 1 }]

/-- The `try` block: the transaction either commits the upsert or raises
(modelled by `fail`). -/
def tryRecord (fail : Bool) (db : StatsDB) (u o : String) (won : Bool) :
    Except Unit StatsDB :=
  if fail then .error () else .ok (upsertResult db u o won)

/-- `record_match_result` from `src/database.py`: returns whether the result
was recorded; skips anonymous users and unconfigured databases; catches any
transaction failure, rolling the statistics write back. -/
def record_match_result (fail : Bool) (userId : Option String) (opponentId : String)
    (won : Bool) (db : Option StatsDB) : Bool × Option StatsDB :=
  match userId with
  | none => (false, db)
  | some u =>
    if u = "" then (false, db)
    else match db with
    | none => (false, none)
    | some d =>
      match tryRecord fail d u opponentId won with
      | .ok d' => (true, some d')
      | .error _ => (false, some d)

structure StatEntry where
  opponentId : String
  wins : Nat
  losses : Nat
  totalGames : Nat
  winRate : ℚ
deriving DecidableEq, Repr

/-- `get_user_stats` from `src/database.py`: per-opponent tallies with a
win rate guarded against division by zero; empty when the database is
unconfigured or the query raises (modelled by `fail`). -/
def get_user_stats (fail : Bool) (db : Option StatsDB) (userId : String) :
    List StatEntry :=
  match db with
  | none => []
  | some d =>
    if fail then []
    else
      (d.filter (fun r => r.userId = userId)).map (fun r =>
        { opponentId := r.opponentId
          wins := r.wins
          losses := r.losses
          totalGames := r.wins + r.losses
          winRate := if 0 < r.wins + r.losses
            then (r.wins : ℚ) / ((r.wins : ℚ) + (r.losses : ℚ)) else 0 })

/-! ## Helper lemmas -/

theorem setHand_score (s : Session) (p q : Player) (h : List Card) :
    (setHand s p h).score q = s.score q := by
  cases p <;> cases q <;> rfl

theorem setHand_table (s : Session) (p : Player) (h : List Card) :
    (setHand s p h).table = s.table := by
  cases p <;> rfl

theorem setHand_seqStart (s : Session) (p : Player) (h : List Card) :
    (setHand s p h).seqStart = s.seqStart := by
  cases p <;> rfl

theorem addScore_table (s : Session) (p : Player) (n : Nat) :
    (addScore s p n).table = s.table := by
  cases p <;> rfl

theorem addScore_seqStart (s : Session) (p : Player) (n : Nat) :
    (addScore s p n).seqStart = s.seqStart := by
  cases p <;> rfl

theorem addScore_hand (s : Session) (p q : Player) (n : Nat) :
    (addScore s p n).hand q = s.hand q := by
  cases p <;> cases q <;> rfl

theorem addScore_humanHand (s : Session) (p : Player) (n : Nat) :
    (addScore s p n).humanHand = s.humanHand := by
  cases p <;> rfl

theorem addScore_computerHand (s : Session) (p : Player) (n : Nat) :
    (addScore s p n).computerHand = s.computerHand := by
  cases p <;> rfl

theorem addScore_score_self (s : Session) (p : Player) (n : Nat) :
    (addScore s p n).score p = s.score p + n := by
  cases p <;> rfl

theorem sumValues_append (l₁ l₂ : List Card) :
    sumValues (l₁ ++ l₂) = sumValues l₁ + sumValues l₂ := by
  simp [sumValues]

theorem card_value_le_ten (c : Card) : c.value ≤ 10 := by
  simp [Card.value]

/-- No card is playable on a count of 31 (all real card values are ≥ 1). -/
theorem legalMoves_at_31 (l : List Card) (h : ∀ c ∈ l, 1 ≤ c.rank) :
    legalMoves l 31 = [] := by
  simp only [legalMoves, List.filter_eq_nil_iff]
  intro c hc
  have := h c hc
  simp only [Card.value, decide_eq_true_eq]
  omega

/-- Every card is playable on a count of 0. -/
theorem legalMoves_at_zero (l : List Card) : legalMoves l 0 = l := by
  simp only [legalMoves]
  apply List.filter_eq_self.mpr
  intro c _
  have := card_value_le_ten c
  simp only [decide_eq_true_eq]
  omega

theorem pickLegal_mem {strat : Strategy} {hand seq : List Card} {c : Card}
    (h : pickLegal strat hand seq = some c) :
    c ∈ legalMoves hand (sumValues seq) := by
  cases hs : strat hand seq with
  | none =>
    simp only [pickLegal, hs] at h
    exact List.mem_of_mem_head? h
  | some c' =>
    simp only [pickLegal, hs] at h
    split at h
    · cases h
      assumption
    · exact List.mem_of_mem_head? h

theorem pickLegal_none {strat : Strategy} {hand seq : List Card}
    (h : pickLegal strat hand seq = none) :
    legalMoves hand (sumValues seq) = [] := by
  cases hs : strat hand seq with
  | none =>
    simp only [pickLegal, hs] at h
    exact List.head?_eq_none_iff.mp h
  | some c' =>
    simp only [pickLegal, hs] at h
    split at h
    · cases h
    · exact List.head?_eq_none_iff.mp h

theorem mem_legalMoves_mem_hand {hand : List Card} {v : Nat} {c : Card}
    (h : c ∈ legalMoves hand v) : c ∈ hand :=
  List.mem_of_mem_filter h

theorem playCore_score_self (s : Session) (p : Player) (c : Card) :
    (playCore s p c).score p = s.score p + playPoints (seqCards s) c := by
  cases p <;> rfl

theorem playCore_table (s : Session) (p : Player) (c : Card) :
    (playCore s p c).table = s.table ++ [(p, c)] := by
  cases p <;> rfl

theorem playCore_seqStart (s : Session) (p : Player) (c : Card) :
    (playCore s p c).seqStart = s.seqStart := by
  cases p <;> rfl

theorem playCore_hand_self (s : Session) (p : Player) (c : Card) :
    (playCore s p c).hand p = (s.hand p).erase c := by
  cases p <;> rfl

theorem playCore_hand_other (s : Session) (p : Player) (c : Card) :
    (playCore s p c).hand p.other = s.hand p.other := by
  cases p <;> rfl

theorem humanHand_eq_hand (s : Session) : s.humanHand = s.hand .human := rfl

theorem computerHand_eq_hand (s : Session) : s.computerHand = s.hand .computer := rfl

theorem score_update_seqStart (s : Session) (n : Nat) (p : Player) :
    ({ s with seqStart := n } : Session).score p = s.score p := by
  cases p <;> rfl

theorem seqCards_playCore (s : Session) (p : Player) (c : Card)
    (hss : s.seqStart ≤ s.table.length) :
    seqCards (playCore s p c) = seqCards s ++ [c] := by
  unfold seqCards
  rw [playCore_table, playCore_seqStart, List.drop_append_of_le_length hss,
    List.map_append]
  rfl

theorem runningValue_playCore (s : Session) (p : Player) (c : Card)
    (hss : s.seqStart ≤ s.table.length) :
    runningValue (playCore s p c) = runningValue s + c.value := by
  unfold runningValue
  rw [seqCards_playCore s p c hss, sumValues_append]
  simp [sumValues]

/-- A hand that survives a play contains only cards of the original hands. -/
theorem playCore_hand_subset (s : Session) (p q : Player) (c : Card) :
    ∀ c' ∈ (playCore s p c).hand q, c' ∈ s.hand q := by
  intro c' hc'
  cases p <;> cases q <;>
    first
      | exact List.mem_of_mem_erase hc'
      | exact hc'

theorem runPoints_short (seq : List Card) (h : seq.length < 3) :
    runPoints seq = 0 := by
  unfold runPoints
  have hfil : ((List.range (seq.length + 1)).filter
      (fun n => 3 ≤ n && isConsec (sortRanks ((lastN n seq).map Card.rank)))) = [] := by
    apply List.filter_eq_nil_iff.mpr
    intro n hn
    have hlt := List.mem_range.mp hn
    simp only [Bool.and_eq_true, decide_eq_true_eq, not_and]
    intro h3
    omega
  rw [hfil]
  rfl

theorem legalMoves_of_le_21 (l : List Card) (v : Nat) (h : v ≤ 21) :
    legalMoves l v = l := by
  simp only [legalMoves]
  apply List.filter_eq_self.mpr
  intro c _
  have := card_value_le_ten c
  simp only [decide_eq_true_eq]
  omega

theorem playCore_card_count (s : Session) (q : Player) (c : Card) :
    totalCards s - 1 ≤
      (playCore s q c).humanHand.length + (playCore s q c).computerHand.length := by
  have herase : ((s.hand q).erase c).length + 1 ≥ (s.hand q).length := by
    by_cases hm : c ∈ s.hand q
    · rw [List.length_erase_of_mem hm]
      omega
    · rw [List.erase_of_not_mem hm]
      omega
  cases q <;>
    simp only [playCore, setHand, addScore, totalCards, Session.hand] at herase ⊢ <;>
    omega

theorem applyPlayS_humanHand_computer (s : Session) (c : Card) :
    (applyPlayS s .computer c).humanHand = s.humanHand := by
  simp only [applyPlayS]
  split <;> rfl

theorem applyPlayS_starter (s : Session) (p : Player) (c : Card) :
    (applyPlayS s p c).starter = s.starter := by
  cases p <;> simp only [applyPlayS] <;> split <;> rfl

theorem applyPlayS_phase (s : Session) (p : Player) (c : Card) :
    (applyPlayS s p c).phase = s.phase := by
  cases p <;> simp only [applyPlayS] <;> split <;> rfl

theorem applyGo_humanHand (s : Session) (p : Player) :
    (applyGo s p).humanHand = s.humanHand := by
  simp only [applyGo]
  split
  · rfl
  · split
    · exact addScore_humanHand s _ 1
    · rfl

theorem applyGo_computerHand (s : Session) (p : Player) :
    (applyGo s p).computerHand = s.computerHand := by
  simp only [applyGo]
  split
  · rfl
  · split
    · exact addScore_computerHand s _ 1
    · rfl

theorem addScore_starter (s : Session) (p : Player) (n : Nat) :
    (addScore s p n).starter = s.starter := by
  cases p <;> rfl

theorem addScore_phase (s : Session) (p : Player) (n : Nat) :
    (addScore s p n).phase = s.phase := by
  cases p <;> rfl

theorem applyGo_starter (s : Session) (p : Player) :
    (applyGo s p).starter = s.starter := by
  simp only [applyGo]
  split
  · rfl
  · split
    · exact addScore_starter s _ 1
    · rfl

theorem applyGo_phase (s : Session) (p : Player) :
    (applyGo s p).phase = s.phase := by
  simp only [applyGo]
  split
  · rfl
  · split
    · exact addScore_phase s _ 1
    · rfl

/-- The automatic computer loop never touches the human hand, the starter or
the phase. -/
theorem computerMovesFuel_preserved (strat : Strategy) :
    ∀ (fuel : Nat) (s : Session),
      (computerMovesFuel strat fuel s).humanHand = s.humanHand ∧
      (computerMovesFuel strat fuel s).starter = s.starter ∧
      (computerMovesFuel strat fuel s).phase = s.phase := by
  intro fuel
  induction fuel with
  | zero => exact fun s => ⟨rfl, rfl, rfl⟩
  | succ fuel ih =>
    intro s
    simp only [computerMovesFuel]
    split
    · split
      · rename_i c _
        obtain ⟨h1, h2, h3⟩ := ih (applyPlayS s .computer c)
        exact ⟨h1.trans (applyPlayS_humanHand_computer s c),
          h2.trans (applyPlayS_starter s .computer c),
          h3.trans (applyPlayS_phase s .computer c)⟩
      · split
        · split
          · rename_i c _
            obtain ⟨h1, h2, h3⟩ := ih (applyPlayS (applyGo s .computer) .computer c)
            exact ⟨(h1.trans (applyPlayS_humanHand_computer _ c)).trans
                (applyGo_humanHand s .computer),
              (h2.trans (applyPlayS_starter _ .computer c)).trans
                (applyGo_starter s .computer),
              (h3.trans (applyPlayS_phase _ .computer c)).trans
                (applyGo_phase s .computer)⟩
          · exact ⟨applyGo_humanHand s .computer, applyGo_starter s .computer,
              applyGo_phase s .computer⟩
        · exact ⟨applyGo_humanHand s .computer, applyGo_starter s .computer,
            applyGo_phase s .computer⟩
    · exact ⟨rfl, rfl, rfl⟩

theorem applyPlayS_computerHand_computer (s : Session) (c : Card) :
    (applyPlayS s .computer c).computerHand = s.computerHand.erase c := by
  simp only [applyPlayS]
  split <;> rfl

/-- A computer play strictly reduces the total cards remaining. -/
theorem applyPlayS_totalCards_computer (s : Session) (c : Card)
    (hc : c ∈ s.computerHand) :
    totalCards (applyPlayS s .computer c) < totalCards s := by
  unfold totalCards
  rw [applyPlayS_humanHand_computer, applyPlayS_computerHand_computer,
    List.length_erase_of_mem hc]
  have := List.length_pos_of_mem hc
  omega

theorem applyGo_totalCards (s : Session) (p : Player) :
    totalCards (applyGo s p) = totalCards s := by
  unfold totalCards
  rw [applyGo_humanHand, applyGo_computerHand]

/-- If resolving the computer's "go" leaves the computer on lead, the reset
put the count at 0 with a non-empty computer hand, so a legal move exists. -/
theorem applyGo_computer_keeps_play (s : Session) (hbe : bothEmpty s = false)
    (hturn : (applyGo s .computer).turn = .computer) :
    legalMoves (applyGo s .computer).computerHand
      (runningValue (applyGo s .computer)) ≠ [] := by
  by_cases hcan : legalMoves (s.hand (Player.other .computer)) (runningValue s) ≠ []
  · have heq : applyGo s .computer = { s with turn := Player.other .computer } := by
      unfold applyGo
      rw [if_pos hcan]
    rw [heq] at hturn
    simp [Player.other] at hturn
  · rcases hlast : (s.table.drop s.seqStart).getLast? with _ | ⟨q, cq⟩
    · have heq : applyGo s .computer =
          { s with seqStart := s.table.length, turn := .human } := by
        unfold applyGo
        rw [if_neg hcan, hlast]
      rw [heq] at hturn
      cases hturn
    · have heq : applyGo s .computer =
          { addScore s q 1 with
            seqStart := (addScore s q 1).table.length
            turn := if ((addScore s q 1).hand q.other).isEmpty then q else q.other } := by
        unfold applyGo
        rw [if_neg hcan, hlast]
      have hch : (applyGo s .computer).computerHand = s.computerHand := by
        rw [heq]
        exact addScore_computerHand s q 1
      have hrv : runningValue (applyGo s .computer) = 0 := by
        unfold runningValue seqCards
        rw [heq]
        show sumValues (((addScore s q 1).table.drop
          (addScore s q 1).table.length).map Prod.snd) = 0
        rw [List.drop_length]
        rfl
      have hcne : s.computerHand ≠ [] := by
        rw [heq] at hturn
        have hturn' : (if ((addScore s q 1).hand q.other).isEmpty then q else q.other)
            = Player.computer := hturn
        rw [addScore_hand] at hturn'
        by_cases hemp : (s.hand q.other).isEmpty = true
        · rw [if_pos hemp] at hturn'
          subst hturn'
          have hhum : s.humanHand.isEmpty = true := hemp
          unfold bothEmpty at hbe
          rw [hhum, Bool.true_and] at hbe
          intro hnil
          rw [hnil] at hbe
          cases hbe
        · rw [if_neg hemp] at hturn'
          rw [hturn'] at hemp
          intro hnil
          refine hemp ?_
          show s.computerHand.isEmpty = true
          rw [hnil]
          rfl
      rw [hch, hrv, legalMoves_at_zero]
      exact hcne

theorem computerMoves_preserved (strat : Strategy) (s : Session) :
    (computerMoves strat s).humanHand = s.humanHand ∧
    (computerMoves strat s).starter = s.starter ∧
    (computerMoves strat s).phase = s.phase :=
  computerMovesFuel_preserved strat (totalCards s + 1) s

/-- A "waiting for computer" pending action can only arise while it is the
computer's turn in an unfinished, non-exhausted pegging position. -/
theorem pendingOf_waiting {s : Session}
    (h : pendingOf s = some PendingKind.waitingForComputer) :
    s.turn = .computer ∧ gameOverB s = false ∧ bothEmpty s = false := by
  unfold pendingOf at h
  split at h
  · cases h
  · rename_i hov
    split at h
    · simp at h
    · cases h
    · split at h
      · cases h
      · rename_i hbe
        split at h
        · simp at h
        · rename_i hth
          refine ⟨?_, ?_, ?_⟩
          · cases ht : s.turn with
            | human => exact absurd ht hth
            | computer => rfl
          · cases hb : gameOverB s with
            | false => rfl
            | true => exact absurd hb hov
          · cases hb : bothEmpty s with
            | false => rfl
            | true => exact absurd hb hbe

/-- With fuel exceeding the remaining card count, the computer loop never
stops in a "waiting for computer" position: every iteration plays a card
(strictly reducing the remaining cards) or hands control back. -/
theorem computerMovesFuel_not_waiting (strat : Strategy) :
    ∀ (fuel : Nat) (s : Session), totalCards s < fuel →
      pendingOf (computerMovesFuel strat fuel s) ≠
        some PendingKind.waitingForComputer := by
  intro fuel
  induction fuel with
  | zero => exact fun s h => absurd h (Nat.not_lt_zero _)
  | succ fuel ih =>
    intro s hfuel
    simp only [computerMovesFuel]
    split
    · rename_i hguard
      obtain ⟨hturn, hov, hbe⟩ := hguard
      split
      · rename_i c heq
        apply ih
        have hc : c ∈ s.computerHand := mem_legalMoves_mem_hand (pickLegal_mem heq)
        have := applyPlayS_totalCards_computer s c hc
        omega
      · rename_i heq
        split
        · rename_i hturn'
          split
          · rename_i c' heq'
            apply ih
            have hc' : c' ∈ (applyGo s .computer).computerHand :=
              mem_legalMoves_mem_hand (pickLegal_mem heq')
            have hlt := applyPlayS_totalCards_computer (applyGo s .computer) c' hc'
            have hgo := applyGo_totalCards s .computer
            omega
          · rename_i heq'
            exact absurd (pickLegal_none heq')
              (applyGo_computer_keeps_play s hbe hturn')
        · rename_i hturn'
          intro hw
          exact hturn' (pendingOf_waiting hw).1
    · rename_i hguard
      intro hw
      obtain ⟨ht, hov, hbe⟩ := pendingOf_waiting hw
      exact hguard ⟨ht, hov, hbe⟩

/-! ## Claim theorems -/

/-- The concrete pegging position of the go/last-card scenario: a running
value of 24 (ten, ten, four), the human holding only a 9♥, the computer
holding only an A♥, scores 1 and 2. -/
def goScenario : Session :=
  { phase := .pegging
    dealer := .computer
    turn := .human
    humanHand := [⟨9, .hearts⟩]
    computerHand := [⟨1, .hearts⟩]
    crib := []
    deck := []
    starter := some ⟨5, .hearts⟩
    table := [(.human, ⟨10, .spades⟩), (.human, ⟨10, .clubs⟩), (.human, ⟨4, .diamonds⟩)]
    seqStart := 0
    youScore := 1
    compScore := 2 }

/-- Claim C1: with the running value at 24, the human (holding only a 9)
declares "go"; the computer plays its only card, the Ace, onto the table,
scores exactly 1 point (last card, moving from 2 to 3 while the human stays
at 1), and the running table value resets to 0 immediately after. -/
theorem go_at_24_opponent_plays_ace_scores_one :
    (resultState (submitAction stratFirst goScenario [])).map
      (fun s => (s.compScore, s.youScore, runningValue s, s.table)) =
    some (3, 1, 0, goScenario.table ++ [(.computer, ⟨1, .hearts⟩)]) := by
  decide

/-- Claim C2: a play that brings the running value to exactly 31 is always
the last card of its sequence (no card can extend 31), and the player is
awarded both bonuses additively: 2 for 31 plus 1 for last card — exactly 3
points beyond any pair/run points of the same play. -/
theorem peg31_scores_both_bonuses (s : Session) (p : Player) (c : Card)
    (hss : s.seqStart ≤ s.table.length)
    (hranks : ∀ q, ∀ c' ∈ s.hand q, 1 ≤ c'.rank)
    (h31 : runningValue s + c.value = 31) :
    (applyPlayS s p c).score p =
      s.score p + 3 + pairPoints (seqCards s) c + runPoints (seqCards s ++ [c]) := by
  have hv : runningValue (playCore s p c) = 31 := by
    rw [runningValue_playCore s p c hss]
    exact h31
  have hmemH : ∀ c' ∈ (playCore s p c).humanHand, 1 ≤ c'.rank := fun c' hc' =>
    hranks .human c' (playCore_hand_subset s p .human c c' hc')
  have hmemC : ∀ c' ∈ (playCore s p c).computerHand, 1 ≤ c'.rank := fun c' hc' =>
    hranks .computer c' (playCore_hand_subset s p .computer c c' hc')
  have hdead : lastCardDue (playCore s p c) = true := by
    unfold lastCardDue
    rw [hv, legalMoves_at_31 _ hmemH, legalMoves_at_31 _ hmemC]
    simp
  have hpts : playPoints (seqCards s) c =
      2 + (pairPoints (seqCards s) c + runPoints (seqCards s ++ [c])) := by
    have h31' : sumValues (seqCards s) + c.value = 31 := h31
    simp only [playPoints, h31']
    norm_num
    omega
  simp only [applyPlayS, hdead, if_true]
  rw [score_update_seqStart, addScore_score_self, playCore_score_self, hpts]
  omega

/-- The 31-and-last-card scenario: the sequence holds three tens (count 30)
and the human plays an Ace, reaching exactly 31. -/
def thirtyOneScenario : Session :=
  { phase := .pegging
    dealer := .computer
    turn := .human
    humanHand := [⟨1, .diamonds⟩]
    computerHand := []
    crib := []
    deck := []
    starter := some ⟨7, .hearts⟩
    table := [(.human, ⟨10, .hearts⟩), (.computer, ⟨10, .spades⟩), (.human, ⟨10, .clubs⟩)]
    seqStart := 0
    youScore := 10
    compScore := 12 }

/-- Witness for C2: the Ace on 30 earns 2 (for 31) + 1 (last card) = 3. -/
theorem peg31_scores_both_bonuses_witness :
    (thirtyOneScenario.seqStart ≤ thirtyOneScenario.table.length) ∧
    (∀ q, ∀ c' ∈ thirtyOneScenario.hand q, 1 ≤ c'.rank) ∧
    (runningValue thirtyOneScenario + Card.value ⟨1, .diamonds⟩ = 31) ∧
    (applyPlayS thirtyOneScenario .human ⟨1, .diamonds⟩).score .human =
      thirtyOneScenario.score .human + 3 +
        pairPoints (seqCards thirtyOneScenario) ⟨1, .diamonds⟩ +
        runPoints (seqCards thirtyOneScenario ++ [⟨1, .diamonds⟩]) :=
  ⟨by decide, by intro q; cases q <;> decide, by decide,
    peg31_scores_both_bonuses thirtyOneScenario .human ⟨1, .diamonds⟩
      (by decide) (by intro q; cases q <;> decide) (by decide)⟩

/-- Claim C3: with a 5 on the table (count 5), the player of a 10 — whoever
played the 5 — completes 15 and is awarded exactly 2 points, as long as the
play is not the round's final card. -/
theorem peg15_scores_exactly_two (s : Session) (p q : Player) (c5 cT : Card)
    (htab : s.table.drop s.seqStart = [(p, c5)])
    (h5 : c5.rank = 5) (hT : cT.rank = 10)
    (hmore : 2 ≤ totalCards s) :
    (applyPlayS s q cT).score q = s.score q + 2 := by
  have hss : s.seqStart ≤ s.table.length := by
    by_contra hlt
    push_neg at hlt
    rw [List.drop_eq_nil_of_le (le_of_lt hlt)] at htab
    cases htab
  have hseq : seqCards s = [c5] := by
    unfold seqCards
    rw [htab]
    rfl
  have hrv : runningValue s = 5 := by
    unfold runningValue
    rw [hseq]
    simp [sumValues, Card.value, h5]
  have hvT : cT.value = 10 := by simp [Card.value, hT]
  have hv : runningValue (playCore s q cT) = 15 := by
    rw [runningValue_playCore s q cT hss, hrv, hvT]
  have hcount : 1 ≤ (playCore s q cT).humanHand.length +
      (playCore s q cT).computerHand.length := by
    have := playCore_card_count s q cT
    omega
  have hnotboth : ((playCore s q cT).humanHand.isEmpty &&
      (playCore s q cT).computerHand.isEmpty) = false := by
    rcases hA : (playCore s q cT).humanHand with _ | ⟨a, as⟩
    · rcases hB : (playCore s q cT).computerHand with _ | ⟨b, bs⟩
      · rw [hA, hB] at hcount
        simp at hcount
      · simp
    · simp
  have hdead : lastCardDue (playCore s q cT) = false := by
    unfold lastCardDue
    rw [hv, legalMoves_of_le_21 _ 15 (by norm_num),
      legalMoves_of_le_21 _ 15 (by norm_num), hnotboth]
    simp [← humanHand_eq_hand, ← computerHand_eq_hand, hnotboth]
  have hpair : pairPoints [c5] cT = 0 := by
    simp [pairPoints, countWhileRank, h5, hT]
  have hrun : runPoints ([c5] ++ [cT]) = 0 := runPoints_short _ (by simp)
  have hpts : playPoints (seqCards s) cT = 2 := by
    rw [hseq]
    have hsv : sumValues [c5] + cT.value = 15 := by
      simp [sumValues, Card.value, h5, hT]
    simp only [playPoints, hsv, hpair, hrun]
    norm_num
  simp only [applyPlayS, hdead, Bool.false_eq_true, if_false]
  rw [playCore_score_self, hpts]

/-- The fifteen-as-final-card position: the computer played a 5 (count 5),
the computer's hand is exhausted and the human holds only the 10. -/
def fifteenFinalScenario : Session :=
  { phase := .pegging
    dealer := .human
    turn := .human
    humanHand := [⟨10, .clubs⟩]
    computerHand := []
    crib := []
    deck := []
    starter := some ⟨8, .hearts⟩
    table := [(.computer, ⟨5, .hearts⟩)]
    seqStart := 0
    youScore := 0
    compScore := 0 }

/-- Counterexample to C3 as universally stated: when the 10 completing 15
is the round's final card, its player scores 2 (fifteen) + 1 (last card)
= 3 points, not exactly 2. -/
theorem peg15_final_card_scores_three :
    (applyPlayS fifteenFinalScenario .human ⟨10, .clubs⟩).score .human =
      fifteenFinalScenario.score .human + 3 ∧
    (applyPlayS fifteenFinalScenario .human ⟨10, .clubs⟩).score .human ≠
      fifteenFinalScenario.score .human + 2 := by
  decide

/-- The fifteen scenario: the computer played a 5 (count 5); the human holds
a 10 and a 2, the computer still holds a 3. -/
def fifteenScenario : Session :=
  { phase := .pegging
    dealer := .human
    turn := .human
    humanHand := [⟨10, .clubs⟩, ⟨2, .spades⟩]
    computerHand := [⟨3, .hearts⟩]
    crib := []
    deck := []
    starter := some ⟨8, .hearts⟩
    table := [(.computer, ⟨5, .hearts⟩)]
    seqStart := 0
    youScore := 0
    compScore := 0 }

/-- Witness for C3: the human's 10 on the computer's 5 scores exactly 2. -/
theorem peg15_scores_exactly_two_witness :
    (fifteenScenario.table.drop fifteenScenario.seqStart = [(.computer, ⟨5, .hearts⟩)]) ∧
    (2 ≤ totalCards fifteenScenario) ∧
    (applyPlayS fifteenScenario .human ⟨10, .clubs⟩).score .human =
      fifteenScenario.score .human + 2 :=
  ⟨by decide, by decide,
    peg15_scores_exactly_two fifteenScenario .computer .human ⟨5, .hearts⟩ ⟨10, .clubs⟩
      (by decide) (by decide) (by decide) (by decide)⟩

/-- Claim C5: a selection whose cardinality is wrong for the current
pending action — not exactly 2 during crib selection, more than 1 during
pegging (where a play takes 1 index and a "go" takes 0) — is rejected with
a validation error, and the session is returned exactly as it was: no state
changes. -/
theorem wrong_cardinality_rejected (strat : Strategy) (s : Session)
    (sel : List Nat) (hover : gameOverB s = false)
    (hwrong : (s.phase = .cribSelect ∧ sel.length ≠ 2) ∨
      (s.phase = .pegging ∧ 2 ≤ sel.length)) :
    handleAction strat s sel = (some .validation, s) := by
  have hsub : submitAction strat s sel = .error .validation := by
    rcases hwrong with ⟨hphase, hlen⟩ | ⟨hphase, hlen⟩
    · unfold submitAction
      split
      · rename_i h
        rw [hover] at h
        cases h
      · split
        · rename_i h
          rw [hphase] at h
          cases h
        · rcases sel with _ | ⟨a, _ | ⟨b, _ | ⟨c, rest⟩⟩⟩
          · rfl
          · rfl
          · exact absurd rfl hlen
          · rfl
        · rename_i h
          rw [hphase] at h
          cases h
    · unfold submitAction
      split
      · rename_i h
        rw [hover] at h
        cases h
      · split
        · rename_i h
          rw [hphase] at h
          cases h
        · rename_i h
          rw [hphase] at h
          cases h
        · rcases sel with _ | ⟨a, _ | ⟨b, rest⟩⟩
          · simp at hlen
          · simp at hlen
          · split
            · rfl
            · rfl
  unfold handleAction
  rw [hsub]

/-- A freshly dealt session awaiting crib selection: the human was dealt
six cards, the computer six, and the deck still holds cards to cut. -/
def dealScenario : Session :=
  { phase := .cribSelect
    dealer := .computer
    turn := .human
    humanHand := [⟨1, .hearts⟩, ⟨3, .spades⟩, ⟨5, .diamonds⟩, ⟨7, .clubs⟩,
      ⟨9, .hearts⟩, ⟨11, .spades⟩]
    computerHand := [⟨2, .hearts⟩, ⟨4, .spades⟩, ⟨6, .diamonds⟩, ⟨8, .clubs⟩,
      ⟨10, .hearts⟩, ⟨12, .spades⟩]
    crib := []
    deck := [⟨13, .clubs⟩, ⟨13, .diamonds⟩]
    starter := none
    table := []
    seqStart := 0
    youScore := 0
    compScore := 0 }

/-- Witness for C5: a single index during crib selection, and three indices
during pegging, each rejected with the session untouched. -/
theorem wrong_cardinality_rejected_witness :
    (gameOverB dealScenario = false ∧
      (dealScenario.phase = .cribSelect ∧ ([0] : List Nat).length ≠ 2)) ∧
    handleAction stratFirst dealScenario [0] = (some .validation, dealScenario) ∧
    (gameOverB goScenario = false ∧
      (goScenario.phase = .pegging ∧ 2 ≤ ([0, 1, 2] : List Nat).length)) ∧
    handleAction stratFirst goScenario [0, 1, 2] = (some .validation, goScenario) :=
  ⟨⟨rfl, rfl, by decide⟩,
    wrong_cardinality_rejected stratFirst dealScenario [0] rfl (Or.inl ⟨rfl, by decide⟩),
    ⟨rfl, rfl, by decide⟩,
    wrong_cardinality_rejected stratFirst goScenario [0, 1, 2] rfl
      (Or.inr ⟨rfl, by decide⟩)⟩

/-- Claim C8: a valid crib selection of exactly 2 distinct indices from the
6-card dealt hand succeeds: the human hand shrinks to exactly 4 cards, a
starter is cut (non-null), and the round is in the pegging phase. -/
theorem crib_selection_enters_pegging (strat : Strategy) (s : Session) (i j : Nat)
    (hphase : s.phase = .cribSelect) (hover : gameOverB s = false)
    (hlen : s.humanHand.length = 6) (hi : i < 6) (hj : j < 6) (hij : i ≠ j)
    (hdeck : s.deck ≠ []) :
    ∃ s', submitAction strat s [i, j] = .ok s' ∧
      s'.humanHand.length = 4 ∧ s'.starter.isSome = true ∧ s'.phase = .pegging := by
  rcases hd : s.deck with _ | ⟨st, rest⟩
  · exact absurd hd hdeck
  have hmax : max i j < s.humanHand.length := by
    rw [hlen]
    omega
  have h5 : (s.humanHand.eraseIdx (max i j)).length = 5 := by
    rw [List.length_eraseIdx, if_pos hmax, hlen]
  have h4 : ((s.humanHand.eraseIdx (max i j)).eraseIdx (min i j)).length = 4 := by
    rw [List.length_eraseIdx, if_pos (by rw [h5]; omega), h5]
  have hcond : i < s.humanHand.length ∧ j < s.humanHand.length ∧ i ≠ j := by
    rw [hlen]
    exact ⟨hi, hj, hij⟩
  have hsub : ∀ strat2 : Strategy, submitAction strat2 s [i, j] = .ok
      (computerMoves strat2 (addScore { s with
        humanHand := (s.humanHand.eraseIdx (max i j)).eraseIdx (min i j)
        computerHand := s.computerHand.drop 2
        crib := [s.humanHand.getD i cardDefault, s.humanHand.getD j cardDefault]
          ++ s.computerHand.take 2
        deck := rest
        starter := some st
        phase := .pegging
        table := []
        seqStart := 0
        turn := s.dealer.other } s.dealer (if st.rank = 11 then 2 else 0))) := by
    intro strat2
    unfold submitAction
    split
    · rename_i h
      rw [hover] at h
      cases h
    · split
      · rename_i h
        rw [hphase] at h
        cases h
      · dsimp only
        rw [if_pos hcond, hd]
      · rename_i h
        rw [hphase] at h
        cases h
  set s₂ := addScore { s with
      humanHand := (s.humanHand.eraseIdx (max i j)).eraseIdx (min i j)
      computerHand := s.computerHand.drop 2
      crib := [s.humanHand.getD i cardDefault, s.humanHand.getD j cardDefault]
        ++ s.computerHand.take 2
      deck := rest
      starter := some st
      phase := .pegging
      table := []
      seqStart := 0
      turn := s.dealer.other } s.dealer (if st.rank = 11 then 2 else 0) with hs₂
  obtain ⟨hH, hS, hP⟩ := computerMoves_preserved strat s₂
  refine ⟨computerMoves strat s₂, hsub strat, ?_, ?_, ?_⟩
  · rw [hH, hs₂, addScore_humanHand]
    exact h4
  · rw [hS, hs₂, addScore_starter]
    rfl
  · rw [hP, hs₂, addScore_phase]

/-- Witness for C8: discarding the first two cards of the dealt hand. -/
theorem crib_selection_enters_pegging_witness :
    (dealScenario.phase = .cribSelect) ∧ (gameOverB dealScenario = false) ∧
    (dealScenario.humanHand.length = 6) ∧ (dealScenario.deck ≠ []) ∧
    ∃ s', submitAction stratFirst dealScenario [0, 1] = .ok s' ∧
      s'.humanHand.length = 4 ∧ s'.starter.isSome = true ∧ s'.phase = .pegging :=
  ⟨rfl, rfl, rfl, by decide,
    crib_selection_enters_pegging stratFirst dealScenario 0 1 rfl rfl rfl
      (by decide) (by decide) (by decide) (by decide)⟩

/-- Claim C7: the automatic computer-move loop always terminates and never
returns control in a "waiting for computer" condition: every iteration
plays a card — strictly reducing the cards remaining in both hands, which
bounds the iterations — or exits, so the state after the loop never has the
waiting-for-computer pending action, for any state and any strategy. -/
theorem computer_loop_never_waits (strat : Strategy) (s : Session) :
    pendingOf (computerMoves strat s) ≠ some PendingKind.waitingForComputer :=
  computerMovesFuel_not_waiting strat (totalCards s + 1) s (Nat.lt_succ_self _)

/-- Claim C9: fetching a session's state is idempotent and side-effect-free:
the fetch returns the session unchanged, and a second fetch returns an
identical snapshot. -/
theorem get_state_idempotent (s : Session) :
    (getGame s).2 = s ∧ (getGame (getGame s).2).1 = (getGame s).1 :=
  ⟨rfl, rfl⟩

/-- Claim C4: as soon as either side's score is at least 121, the observable
state reports the game over, no pending action, and a winner whose score is
at least 121. -/
theorem game_over_at_121 (s : Session)
    (h : 121 ≤ s.youScore ∨ 121 ≤ s.compScore) :
    (getState s).gameOver = true ∧ (getState s).pending = none ∧
    ∃ w, (getState s).winner = some w ∧ 121 ≤ s.score w := by
  have hover : gameOverB s = true := by
    simp only [gameOverB, Bool.or_eq_true, decide_eq_true_eq]
    exact h
  refine ⟨hover, ?_, ?_⟩
  · simp [getState, pendingOf, hover]
  · by_cases hy : 121 ≤ s.youScore
    · exact ⟨.human, by simp [getState, winnerOf, hy], hy⟩
    · have hc : 121 ≤ s.compScore := h.resolve_left hy
      exact ⟨.computer, by simp [getState, winnerOf, hy, hc], hc⟩

/-- A mid-round session in which the human has just crossed 121. -/
def wonSession : Session :=
  { goScenario with youScore := 121, compScore := 96 }

/-- Witness for C4 at a concrete winning position. -/
theorem game_over_at_121_witness :
    (121 ≤ wonSession.youScore ∨ 121 ≤ wonSession.compScore) ∧
    ((getState wonSession).gameOver = true ∧ (getState wonSession).pending = none ∧
      ∃ w, (getState wonSession).winner = some w ∧ 121 ≤ wonSession.score w) :=
  ⟨by decide, game_over_at_121 wonSession (by decide)⟩

/-- Claim C6: recording a match result is fire-and-forget: the function
always returns (it catches the transaction failure) and on any database
failure it returns `False` with the statistics store rolled back to exactly
its previous contents, so gameplay state is never affected. -/
theorem record_match_result_fire_and_forget (userId : Option String)
    (opponentId : String) (won : Bool) (db : Option StatsDB) :
    record_match_result true userId opponentId won db = (false, db) := by
  cases userId with
  | none => rfl
  | some u =>
    by_cases hu : u = "" <;> cases db <;>
      simp [record_match_result, tryRecord, hu]

/-- Claim C10: `get_user_stats` never divides by zero: every returned entry
has `total_games = wins + losses` and `win_rate` equal to
`wins / (wins + losses)` when that total is positive and `0` otherwise; on
a database error or with no database configured it returns the empty list. -/
theorem get_user_stats_no_div_by_zero (fail : Bool) (db : Option StatsDB)
    (userId : String) :
    (db = none → get_user_stats fail db userId = []) ∧
    (fail = true → get_user_stats fail db userId = []) ∧
    ∀ e ∈ get_user_stats fail db userId,
      e.totalGames = e.wins + e.losses ∧
      (0 < e.wins + e.losses →
        e.winRate = (e.wins : ℚ) / ((e.wins : ℚ) + (e.losses : ℚ))) ∧
      (e.wins + e.losses = 0 → e.winRate = 0) := by
  refine ⟨?_, ?_, ?_⟩
  · intro hdb
    subst hdb
    rfl
  · intro hf
    subst hf
    cases db <;> rfl
  · intro e he
    cases db with
    | none => cases he
    | some d =>
      cases fail with
      | true => cases he
      | false =>
        obtain ⟨r, _, rfl⟩ := List.mem_map.mp he
        refine ⟨rfl, ?_, ?_⟩
        · intro hpos
          dsimp only at hpos ⊢
          rw [if_pos hpos]
        · intro hzero
          dsimp only at hzero ⊢
          rw [if_neg (by omega)]

/-- Witness for C10: an unconfigured database yields the empty list, and a
concrete one-row store yields the guarded win rate. -/
theorem get_user_stats_no_div_by_zero_witness :
    get_user_stats false none "u" = [] ∧
    ∀ e ∈ get_user_stats false (some [⟨"u", "linearb", 3, 1⟩]) "u",
      e.totalGames = e.wins + e.losses :=
  ⟨(get_user_stats_no_div_by_zero false none "u").1 rfl,
   fun e he =>
     (((get_user_stats_no_div_by_zero false (some [⟨"u", "linearb", 3, 1⟩]) "u").2.2) e he).1⟩

end Crib
